import Mathlib

/-
Verification of the ShipShell command shell core: the typed environment
store (src/shell/env.rs), the with-env scoped execution
(src/shell/exec/mod.rs, src/shell/exec/capture.rs), the command algebra
(src/bindings.rs), program resolution (src/shell/exec/resolution.rs) and
the executor dispatch (src/shell/exec/mod.rs).

Strings that the Rust code inspects character by character are modelled
as `List Char`; opaque strings (environment keys, program arguments) are
modelled as Lean `String`.  Rust's `HashMap<String, EnvValue>` is
modelled as an association list with insert-replaces-existing semantics;
iteration order of a `HashMap` is unspecified, so overlays are lists of
pairs with pairwise-distinct keys.  Rust panics (the `ENV` key) are
modelled by `Option`/`Except`: `none` is a panic.  `f64` values are
modelled by their Rust `Display` text, since every claim about `Decimal`
is only up to textual normalization.
-/

/-- Convert a string literal to the character-list model. -/
def chars (s : String) : List Char := s.toList

/-- HashMap-style insert on an association list: replaces any existing
binding of the key (models `HashMap::insert`). -/
def mapInsert {α : Type} (k : String) (v : α) (l : List (String × α)) :
    List (String × α) :=
  (k, v) :: l.filter (fun p => p.1 != k)

/-- HashMap-style removal (models `HashMap::remove`, state part only). -/
def mapErase {α : Type} (k : String) (l : List (String × α)) :
    List (String × α) :=
  l.filter (fun p => p.1 != k)

/-- The value domain of the shell environment (src/shell/env.rs,
`enum EnvValue`).  `Decimal` carries the textual form of the `f64`. -/
inductive EnvValue where
  | Str (s : List Char)
  | Integer (i : Int)
  | Decimal (d : List Char)
  | Bool (b : Bool)
  | None
  | List (items : List EnvValue)
  | FilePath (p : List Char)

mutual

/-- Structural equality test on environment values (models the derived
`PartialEq` on the Rust `EnvValue`). -/
def envBeq : EnvValue → EnvValue → Bool
  | .Str a, .Str b => a == b
  | .Integer a, .Integer b => a == b
  | .Decimal a, .Decimal b => a == b
  | .Bool a, .Bool b => a == b
  | .None, .None => true
  | .List a, .List b => envBeqList a b
  | .FilePath a, .FilePath b => a == b
  | _, _ => false

/-- Elementwise equality test on lists of environment values. -/
def envBeqList : List EnvValue → List EnvValue → Bool
  | [], [] => true
  | x :: xs, y :: ys => envBeq x y && envBeqList xs ys
  | _, _ => false

end

theorem envBeq_iff_aux :
    ∀ (n : Nat) (a b : EnvValue), sizeOf a ≤ n →
      (envBeq a b = true ↔ a = b) := by
  intro n
  induction n with
  | zero => intro a b h; cases a <;> simp at h <;> omega
  | succ n ih =>
    intro a b h
    cases a <;> cases b <;> simp [envBeq]
    case List.List la lb =>
      have hla : sizeOf la ≤ n := by simp at h; omega
      clear h
      revert hla
      induction la generalizing lb with
      | nil => intro _; cases lb <;> simp [envBeqList]
      | cons x xs ihl =>
        intro hla
        have hx : sizeOf x ≤ n := by
          have hm := List.sizeOf_lt_of_mem (List.mem_cons_self x xs)
          omega
        have hxs : sizeOf xs ≤ n := by simp at hla; omega
        cases lb with
        | nil => simp [envBeqList]
        | cons y ys =>
          simp [envBeqList, ih x y hx, ihl ys hxs]

theorem envBeq_iff (a b : EnvValue) : envBeq a b = true ↔ a = b :=
  envBeq_iff_aux (sizeOf a) a b (Nat.le_refl _)

instance : DecidableEq EnvValue := fun a b =>
  decidable_of_iff _ (envBeq_iff a b)

/-- Decimal digit for a value below ten (helper for integer display). -/
def digitChar : Nat → Char
  | 0 => '0' | 1 => '1' | 2 => '2' | 3 => '3' | 4 => '4'
  | 5 => '5' | 6 => '6' | 7 => '7' | 8 => '8' | 9 => '9'
  | _ => '*'

/-- Numeric value of a decimal digit character. -/
def digitVal (c : Char) : Nat := c.toNat - '0'.toNat

/-- Decimal digits of a natural number, most significant first
(models Rust's `u64`-magnitude part of `i64::to_string`). -/
def natToChars (n : Nat) : List Char :=
  if h : n < 10 then [digitChar n]
  else natToChars (n / 10) ++ [digitChar (n % 10)]
  decreasing_by
    exact Nat.div_lt_self (Nat.lt_of_lt_of_le (by norm_num) (Nat.le_of_not_lt h)) (by norm_num)

/-- Textual form of a signed integer (models `i64::to_string`). -/
def intToChars (i : Int) : List Char :=
  if i < 0 then '-' :: natToChars i.natAbs else natToChars i.toNat

/-- Value of a digit string, most significant first. -/
def natFromDigits (l : List Char) : Nat :=
  l.foldl (fun acc c => acc * 10 + digitVal c) 0

/-- Parse a non-empty all-digit string into a natural number. -/
def parseNatDigits (l : List Char) : Option Nat :=
  if !l.isEmpty && l.all Char.isDigit then some (natFromDigits l) else none

/-- Models `i64::from_str`: optional sign, decimal digits, range check. -/
def parseI64 (s : List Char) : Option Int :=
  match s with
  | [] => none
  | c :: rest =>
    if c = '+' then
      (parseNatDigits rest).bind fun n =>
        if n ≤ 2 ^ 63 - 1 then some (Int.ofNat n) else none
    else if c = '-' then
      (parseNatDigits rest).bind fun n =>
        if n ≤ 2 ^ 63 then some (-(Int.ofNat n)) else none
    else
      (parseNatDigits (c :: rest)).bind fun n =>
        if n ≤ 2 ^ 63 - 1 then some (Int.ofNat n) else none

/-- True when the list is nonempty and all characters are decimal digits. -/
def allDigits1 (l : List Char) : Bool := !l.isEmpty && l.all Char.isDigit

/-- Optional sign followed by one or more digits (the exponent body of
the `f64::from_str` grammar). -/
def signedDigits (l : List Char) : Bool :=
  match l with
  | [] => false
  | c :: rest => if c = '+' || c = '-' then allDigits1 rest else allDigits1 (c :: rest)

/-- Either nothing, or an exponent marker followed by signed digits. -/
def expOrEmpty : List Char → Bool
  | [] => true
  | c :: rest => (c = 'e' || c = 'E') && signedDigits rest

/-- The `Number` production of the `f64::from_str` grammar: digits with
an optional point, optional fractional digits and an optional exponent,
with at least one mantissa digit. -/
def f64Number (l : List Char) : Bool :=
  let intPart := l.takeWhile Char.isDigit
  let r1 := l.dropWhile Char.isDigit
  if r1.head? = some '.' then
    let r2 := r1.tail
    let fracPart := r2.takeWhile Char.isDigit
    let r3 := r2.dropWhile Char.isDigit
    (!intPart.isEmpty || !fracPart.isEmpty) && expOrEmpty r3
  else !intPart.isEmpty && expOrEmpty r1

/-- Lower-cased copy of a character list. -/
def lowerChars (l : List Char) : List Char := l.map Char.toLower

/-- The case-insensitive special values accepted by `f64::from_str`. -/
def isInfNan (l : List Char) : Bool :=
  lowerChars l == chars "inf" || lowerChars l == chars "infinity" ||
    lowerChars l == chars "nan"

/-- Remove one leading sign character if present. -/
def stripSign : List Char → List Char
  | [] => []
  | c :: rest => if c = '+' || c = '-' then rest else c :: rest

/-- Whether `f64::from_str` accepts this string (syntactic model of the
documented grammar; the claims never depend on the numeric value). -/
def isF64Lit (s : List Char) : Bool :=
  let body := stripSign s
  isInfNan body || f64Number body

/-- The path-pattern test of `EnvValue::parse_from_string` step 7:
absolute, home-relative with a separator, `./` or `../`. -/
def pathlike (s : List Char) : Bool :=
  s.head? == some '/' ||
  (s.head? == some '~' && s.contains '/') ||
  (chars "./").isPrefixOf s ||
  (chars "../").isPrefixOf s

/-- Split on a separator character (models `str::split`): always returns
at least one piece, and empty pieces around adjacent separators. -/
def splitChar (c : Char) : List Char → List (List Char)
  | [] => [[]]
  | x :: xs =>
    if x = c then [] :: splitChar c xs
    else
      match splitChar c xs with
      | [] => [[x]]
      | p :: ps => (x :: p) :: ps

/-- Join pieces with a separator character (models `[String]::join`). -/
def intercalateChar (c : Char) : List (List Char) → List Char
  | [] => []
  | [p] => p
  | p :: ps => p ++ c :: intercalateChar c ps

theorem splitChar_ne_nil (c : Char) (s : List Char) : splitChar c s ≠ [] := by
  cases s with
  | nil => simp [splitChar]
  | cons x xs =>
    simp only [splitChar]
    split
    · simp
    · split <;> simp

theorem splitChar_mem_length (c : Char) :
    ∀ (s p : List Char), p ∈ splitChar c s →
      p.length ≤ s.length ∧ (c ∈ s → p.length < s.length) := by
  intro s
  induction s with
  | nil =>
    intro p hp
    simp [splitChar] at hp
    simp [hp]
  | cons x xs ih =>
    intro p hp
    simp only [splitChar] at hp
    by_cases hx : x = c
    · simp [hx] at hp
      rcases hp with rfl | hp
      · constructor
        · simp
        · intro _; simp
      · have := ih p hp
        constructor
        · simp; omega
        · intro _; simp; omega
    · simp [hx] at hp
      rcases hsp : splitChar c xs with _ | ⟨q, qs⟩
      · exact absurd hsp (splitChar_ne_nil c xs)
      · rw [hsp] at hp
        simp at hp
        rcases hp with rfl | hp
        · have hq := ih q (by rw [hsp]; exact List.mem_cons_self q qs)
          constructor
          · simp; omega
          · intro hmem
            have hcxs : c ∈ xs := by
              rcases List.mem_cons.mp hmem with rfl | h2
              · exact absurd rfl hx
              · exact h2
            have := hq.2 hcxs
            simp; omega
        · have hq := ih p (by rw [hsp]; exact List.mem_cons_of_mem q hp)
          constructor
          · simp; omega
          · intro hmem
            have hcxs : c ∈ xs := by
              rcases List.mem_cons.mp hmem with rfl | h2
              · exact absurd rfl hx
              · exact h2
            have := hq.2 hcxs
            simp; omega

/-- Canonical string projection of an environment value
(src/shell/env.rs, `EnvValue::to_string_repr`). -/
def to_string_repr : EnvValue → List Char
  | .Str s => s
  | .Integer i => intToChars i
  | .Decimal d => d
  | .Bool b => if b then chars "True" else chars "False"
  | .None => []
  | .List items => intercalateChar ':' (items.attach.map (fun x => to_string_repr x.1))
  | .FilePath p => p
decreasing_by
  have := List.sizeOf_lt_of_mem x.2
  simp
  omega

/-- Type-detecting parse of an inherited string
(src/shell/env.rs, `EnvValue::parse_from_string`). -/
def parse_from_string (s : List Char) : EnvValue :=
  if s.isEmpty then .None
  else if s = chars "True" then .Bool true
  else if s = chars "False" then .Bool false
  else if !s.contains '.' && (parseI64 s).isSome then .Integer ((parseI64 s).getD 0)
  else if s.contains '.' && isF64Lit s then .Decimal s
  else if hc : s.contains ':' then
    .List ((splitChar ':' s).attach.map (fun p => parse_from_string p.1))
  else if pathlike s then .FilePath s
  else .Str s
termination_by s.length
decreasing_by
  have hmem := (splitChar_mem_length ':' s p.1 p.2).2
  simp at hc
  exact hmem hc

theorem to_string_repr_list (items : List EnvValue) :
    to_string_repr (.List items) = intercalateChar ':' (items.map to_string_repr) := by
  rw [to_string_repr]
  congr 1
  exact List.attach_map_val items to_string_repr

theorem parse_from_string_eq (s : List Char) :
    parse_from_string s =
      if s.isEmpty then .None
      else if s = chars "True" then .Bool true
      else if s = chars "False" then .Bool false
      else if !s.contains '.' && (parseI64 s).isSome then
        .Integer ((parseI64 s).getD 0)
      else if s.contains '.' && isF64Lit s then .Decimal s
      else if s.contains ':' then .List ((splitChar ':' s).map parse_from_string)
      else if pathlike s then .FilePath s
      else .Str s := by
  rw [parse_from_string]
  simp only [List.attach_map_val, dite_eq_ite]

theorem natToChars_spec (n : Nat) :
    natToChars n ≠ [] ∧ ∀ c ∈ natToChars n, c.isDigit = true := by
  induction n using Nat.strong_induction_on with
  | _ n ih =>
    rw [natToChars]
    split
    · rename_i h
      refine ⟨by simp, ?_⟩
      intro c hc
      simp at hc
      subst hc
      interval_cases n <;> decide
    · rename_i h
      have hd := ih (n / 10) (Nat.div_lt_self (by omega) (by norm_num))
      refine ⟨by simp [hd.1], ?_⟩
      intro c hc
      rw [List.mem_append] at hc
      rcases hc with hc | hc
      · exact hd.2 c hc
      · simp at hc
        subst hc
        have hm : n % 10 < 10 := Nat.mod_lt _ (by norm_num)
        set m := n % 10 with hmdef
        interval_cases m <;> decide

theorem natFromDigits_natToChars (n : Nat) :
    natFromDigits (natToChars n) = n := by
  induction n using Nat.strong_induction_on with
  | _ n ih =>
    rw [natToChars]
    split
    · rename_i h
      show natFromDigits [digitChar n] = n
      interval_cases n <;> decide
    · rename_i h
      have hd := ih (n / 10) (Nat.div_lt_self (by omega) (by norm_num))
      show natFromDigits (natToChars (n / 10) ++ [digitChar (n % 10)]) = n
      unfold natFromDigits
      rw [List.foldl_append]
      have hrw : natFromDigits (natToChars (n / 10)) = n / 10 := hd
      unfold natFromDigits at hrw
      rw [hrw]
      simp only [List.foldl_cons, List.foldl_nil]
      have hm : n % 10 < 10 := Nat.mod_lt _ (by norm_num)
      have hv : digitVal (digitChar (n % 10)) = n % 10 := by
        set m := n % 10 with hmdef
        interval_cases m <;> decide
      rw [hv]
      omega

theorem parseNatDigits_natToChars (n : Nat) :
    parseNatDigits (natToChars n) = some n := by
  have hs := natToChars_spec n
  unfold parseNatDigits
  have h1 : (natToChars n).isEmpty = false := by
    cases hl : natToChars n with
    | nil => exact absurd hl hs.1
    | cons c cs => simp
  have h2 : (natToChars n).all Char.isDigit = true := by
    rw [List.all_eq_true]
    exact hs.2
  rw [h1, h2]
  simp [natFromDigits_natToChars]

theorem intToChars_mem (i : Int) :
    ∀ c ∈ intToChars i, c.isDigit = true ∨ c = '-' := by
  intro c hc
  unfold intToChars at hc
  split at hc
  · rcases List.mem_cons.mp hc with rfl | hc
    · right; rfl
    · left; exact (natToChars_spec _).2 c hc
  · left; exact (natToChars_spec _).2 c hc

theorem intToChars_ne_nil (i : Int) : intToChars i ≠ [] := by
  unfold intToChars
  split
  · simp
  · exact (natToChars_spec _).1

theorem parseI64_intToChars (i : Int) (h1 : -(2 ^ 63) ≤ i) (h2 : i < 2 ^ 63) :
    parseI64 (intToChars i) = some i := by
  by_cases hneg : i < 0
  · have hrepr : intToChars i = '-' :: natToChars i.natAbs := by
      unfold intToChars; rw [if_pos hneg]
    have hb : i.natAbs ≤ 2 ^ 63 := by omega
    rw [hrepr]
    simp only [parseI64]
    rw [if_neg (by decide : ¬('-' = '+')), if_pos trivial, parseNatDigits_natToChars]
    show (if i.natAbs ≤ 2 ^ 63 then some (-Int.ofNat i.natAbs) else none) = some i
    rw [if_pos hb]
    congr 1
    show -(i.natAbs : Int) = i
    omega
  · have hrepr : intToChars i = natToChars i.toNat := by
      unfold intToChars; rw [if_neg hneg]
    rw [hrepr]
    rcases hl : natToChars i.toNat with _ | ⟨c, cs⟩
    · exact absurd hl (natToChars_spec _).1
    · have hcdig : c.isDigit = true :=
        (natToChars_spec i.toNat).2 c (by rw [hl]; exact List.mem_cons_self c cs)
      have hcp : ¬c = '+' := by intro h; rw [h] at hcdig; exact absurd hcdig (by decide)
      have hcm : ¬c = '-' := by intro h; rw [h] at hcdig; exact absurd hcdig (by decide)
      simp only [parseI64]
      rw [if_neg hcp, if_neg hcm, ← hl, parseNatDigits_natToChars]
      have hb : i.toNat ≤ 2 ^ 63 - 1 := by omega
      simp [hb]
      omega

theorem parseNatDigits_mem (l : List Char) (n : Nat)
    (h : parseNatDigits l = some n) : ∀ c ∈ l, c.isDigit = true := by
  unfold parseNatDigits at h
  split at h
  · rename_i hcond
    rw [Bool.and_eq_true, List.all_eq_true] at hcond
    exact hcond.2
  · exact absurd h (by simp)

theorem parseI64_mem (s : List Char) (n : Int) (h : parseI64 s = some n) :
    ∀ c ∈ s, c.isDigit = true ∨ c = '+' ∨ c = '-' := by
  intro c hc
  rcases s with _ | ⟨d, rest⟩
  · simp at hc
  · simp only [parseI64] at h
    by_cases hdp : d = '+'
    · rw [if_pos hdp] at h
      rcases List.mem_cons.mp hc with rfl | hc2
      · right; left; exact hdp
      · rcases hp : parseNatDigits rest with _ | m
        · rw [hp] at h; simp at h
        · left; exact parseNatDigits_mem rest m hp c hc2
    · rw [if_neg hdp] at h
      by_cases hdm : d = '-'
      · rw [if_pos hdm] at h
        rcases List.mem_cons.mp hc with rfl | hc2
        · right; right; exact hdm
        · rcases hp : parseNatDigits rest with _ | m
          · rw [hp] at h; simp at h
          · left; exact parseNatDigits_mem rest m hp c hc2
      · rw [if_neg hdm] at h
        rcases hp : parseNatDigits (d :: rest) with _ | m
        · rw [hp] at h; simp at h
        · left; exact parseNatDigits_mem (d :: rest) m hp c hc

theorem parseI64_of_mem_bad (s : List Char) (c : Char) (hc : c ∈ s)
    (hdig : c.isDigit = false) (hp : c ≠ '+') (hm : c ≠ '-') :
    parseI64 s = none := by
  rcases h : parseI64 s with _ | n
  · rfl
  · rcases parseI64_mem s n h c hc with hd | hd | hd
    · rw [hdig] at hd; exact absurd hd (by decide)
    · exact absurd hd hp
    · exact absurd hd hm

theorem allDigits1_mem (l : List Char) (h : allDigits1 l = true) :
    ∀ c ∈ l, c.isDigit = true := by
  unfold allDigits1 at h
  rw [Bool.and_eq_true, List.all_eq_true] at h
  exact h.2

theorem signedDigits_mem (l : List Char) (h : signedDigits l = true) :
    ∀ c ∈ l, c.isDigit = true ∨ c = '+' ∨ c = '-' := by
  intro c hc
  rcases l with _ | ⟨d, rest⟩
  · simp at hc
  · simp only [signedDigits] at h
    split at h
    · rename_i hd
      rw [Bool.or_eq_true] at hd
      rcases List.mem_cons.mp hc with rfl | hc2
      · rcases hd with hd | hd
        · right; left; exact of_decide_eq_true hd
        · right; right; exact of_decide_eq_true hd
      · left; exact allDigits1_mem rest h c hc2
    · left; exact allDigits1_mem (d :: rest) h c hc

theorem expOrEmpty_excl (c : Char) (hdig : c.isDigit = false)
    (hp : c ≠ '+') (hm : c ≠ '-') (he : c ≠ 'e') (hE : c ≠ 'E')
    (l : List Char) (h : expOrEmpty l = true) : c ∉ l := by
  intro hc
  rcases l with _ | ⟨d, rest⟩
  · simp at hc
  · unfold expOrEmpty at h
    rw [Bool.and_eq_true, Bool.or_eq_true] at h
    rcases List.mem_cons.mp hc with rfl | hc2
    · rcases h.1 with hd | hd
      · exact he (of_decide_eq_true hd)
      · exact hE (of_decide_eq_true hd)
    · rcases signedDigits_mem rest h.2 c hc2 with hd | hd | hd
      · rw [hdig] at hd; exact absurd hd (by decide)
      · exact hp hd
      · exact hm hd

theorem mem_takeWhile_digit (l : List Char) (c : Char)
    (hc : c ∈ l.takeWhile Char.isDigit) : c.isDigit = true :=
  List.mem_takeWhile_imp hc

theorem f64Number_excl (c : Char) (hdig : c.isDigit = false)
    (hdot : c ≠ '.') (hp : c ≠ '+') (hm : c ≠ '-') (he : c ≠ 'e') (hE : c ≠ 'E')
    (l : List Char) (h : f64Number l = true) : c ∉ l := by
  intro hc
  have hsplit : l.takeWhile Char.isDigit ++ l.dropWhile Char.isDigit = l :=
    List.takeWhile_append_dropWhile Char.isDigit l
  have hc2 : c ∈ l.takeWhile Char.isDigit ∨ c ∈ l.dropWhile Char.isDigit := by
    rw [← List.mem_append, hsplit]; exact hc
  rcases hc2 with hc2 | hc2
  · have := mem_takeWhile_digit l c hc2
    rw [hdig] at this; exact absurd this (by decide)
  · simp only [f64Number] at h
    by_cases hhead : (l.dropWhile Char.isDigit).head? = some '.'
    · rw [if_pos hhead] at h
      rw [Bool.and_eq_true] at h
      rcases hdw : l.dropWhile Char.isDigit with _ | ⟨d0, r2⟩
      · rw [hdw] at hc2; simp at hc2
      · have hd0 : d0 = '.' := by rw [hdw] at hhead; simp at hhead; exact hhead
        rw [hdw] at hc2
        rcases List.mem_cons.mp hc2 with rfl | hc3
        · exact hdot hd0
        · have hsplit2 : r2.takeWhile Char.isDigit ++ r2.dropWhile Char.isDigit = r2 :=
            List.takeWhile_append_dropWhile Char.isDigit r2
          have hc4 : c ∈ r2.takeWhile Char.isDigit ∨ c ∈ r2.dropWhile Char.isDigit := by
            rw [← List.mem_append, hsplit2]; exact hc3
          rcases hc4 with hc4 | hc4
          · have := mem_takeWhile_digit r2 c hc4
            rw [hdig] at this; exact absurd this (by decide)
          · have hexp : expOrEmpty (r2.dropWhile Char.isDigit) = true := by
              have h2 := h.2
              rw [hdw] at h2
              simpa using h2
            exact expOrEmpty_excl c hdig hp hm he hE _ hexp hc4
    · rw [if_neg hhead] at h
      rw [Bool.and_eq_true] at h
      exact expOrEmpty_excl c hdig hp hm he hE _ h.2 hc2

theorem isInfNan_excl (c : Char)
    (hinf : c.toLower ∉ chars "infinity") (hnan : c.toLower ∉ chars "nan")
    (l : List Char) (h : isInfNan l = true) : c ∉ l := by
  intro hc
  have hmem : c.toLower ∈ lowerChars l := List.mem_map_of_mem Char.toLower hc
  unfold isInfNan at h
  rw [Bool.or_eq_true, Bool.or_eq_true] at h
  rcases h with (h | h) | h
  · rw [beq_iff_eq] at h
    rw [h] at hmem
    have hsub : ∀ x ∈ chars "inf", x ∈ chars "infinity" := by decide
    exact hinf (hsub _ hmem)
  · rw [beq_iff_eq] at h
    rw [h] at hmem
    exact hinf hmem
  · rw [beq_iff_eq] at h
    rw [h] at hmem
    exact hnan hmem

theorem isF64Lit_excl (c : Char) (hdig : c.isDigit = false)
    (hdot : c ≠ '.') (hp : c ≠ '+') (hm : c ≠ '-') (he : c ≠ 'e') (hE : c ≠ 'E')
    (hinf : c.toLower ∉ chars "infinity") (hnan : c.toLower ∉ chars "nan")
    (s : List Char) (h : isF64Lit s = true) : c ∉ s := by
  intro hc
  have hbody : c ∈ stripSign s := by
    rcases s with _ | ⟨d, rest⟩
    · simp at hc
    · simp only [stripSign]
      split
      · rename_i hd
        rw [Bool.or_eq_true] at hd
        rcases List.mem_cons.mp hc with rfl | hc2
        · rcases hd with hd | hd
          · exact absurd (of_decide_eq_true hd) hp
          · exact absurd (of_decide_eq_true hd) hm
        · exact hc2
      · exact hc
  unfold isF64Lit at h
  rw [Bool.or_eq_true] at h
  rcases h with h | h
  · exact isInfNan_excl c hinf hnan _ h hbody
  · exact f64Number_excl c hdig hdot hp hm he hE _ h hbody

theorem isF64Lit_no_colon (s : List Char) (h : (':' : Char) ∈ s) :
    isF64Lit s = false := by
  rcases hf : isF64Lit s with _ | _
  · rfl
  · exact absurd h
      (isF64Lit_excl ':' (by decide) (by decide) (by decide) (by decide)
        (by decide) (by decide) (by decide) (by decide) s hf)

theorem isF64Lit_no_slash (s : List Char) (h : ('/' : Char) ∈ s) :
    isF64Lit s = false := by
  rcases hf : isF64Lit s with _ | _
  · rfl
  · exact absurd h
      (isF64Lit_excl '/' (by decide) (by decide) (by decide) (by decide)
        (by decide) (by decide) (by decide) (by decide) s hf)

theorem attach_all {α : Type} (l : List α) (g : α → Bool) :
    l.attach.all (fun x => g x.1) = l.all g := by
  rcases hall : l.all g with _ | _
  · rw [List.all_eq_false] at hall ⊢
    rcases hall with ⟨x, hx, hgx⟩
    exact ⟨⟨x, hx⟩, List.mem_attach l ⟨x, hx⟩, hgx⟩
  · rw [List.all_eq_true] at hall ⊢
    intro x _
    exact hall x.1 x.2

theorem pathlike_mem_slash (p : List Char) (h : pathlike p = true) :
    ('/' : Char) ∈ p := by
  unfold pathlike at h
  simp only [Bool.or_eq_true] at h
  rcases h with ((h | h) | h) | h
  · rw [beq_iff_eq] at h
    rcases p with _ | ⟨a, t⟩
    · simp at h
    · simp at h
      rw [h]; exact List.mem_cons_self _ _
  · rw [Bool.and_eq_true] at h
    have h2 := h.2
    simpa using h2
  · rw [ List.isPrefixOf_iff_prefix] at h
    rcases h with ⟨t, ht⟩
    rw [← ht]
    simp [chars]
  · rw [ List.isPrefixOf_iff_prefix] at h
    rcases h with ⟨t, ht⟩
    rw [← ht]
    simp [chars]

theorem splitChar_no_sep (c : Char) (p : List Char) (hc : c ∉ p) :
    splitChar c p = [p] := by
  induction p with
  | nil => rfl
  | cons x xs ih =>
    have hx : ¬(x = c) := by
      intro h2
      exact hc (by rw [← h2]; exact List.mem_cons_self _ _)
    simp only [splitChar]
    rw [if_neg hx, ih (fun h2 => hc (List.mem_cons_of_mem x h2))]

theorem splitChar_append_sep (c : Char) (p t : List Char) (hp : c ∉ p) :
    splitChar c (p ++ c :: t) = p :: splitChar c t := by
  induction p with
  | nil => simp [splitChar]
  | cons x xs ih =>
    have hx : ¬(x = c) := by
      intro h2
      exact hp (by rw [← h2]; exact List.mem_cons_self _ _)
    simp only [List.cons_append, splitChar, List.append_eq]
    rw [if_neg hx, ih (fun h2 => hp (List.mem_cons_of_mem x h2))]

theorem splitChar_intercalateChar (c : Char) :
    ∀ ps : List (List Char), ps ≠ [] → (∀ p ∈ ps, c ∉ p) →
      splitChar c (intercalateChar c ps) = ps := by
  intro ps
  induction ps with
  | nil => intro h _; exact absurd rfl h
  | cons p rest ih =>
    intro _ hmem
    rcases rest with _ | ⟨q, rest2⟩
    · show splitChar c (intercalateChar c [p]) = [p]
      rw [show intercalateChar c [p] = p from rfl]
      exact splitChar_no_sep c p (hmem p (List.mem_cons_self _ _))
    · show splitChar c (p ++ c :: intercalateChar c (q :: rest2)) = p :: q :: rest2
      rw [splitChar_append_sep c p _ (hmem p (List.mem_cons_self _ _))]
      rw [ih (by simp) (fun x hx => hmem x (List.mem_cons_of_mem p hx))]

theorem mem_intercalateChar (c : Char) (p q : List Char)
    (rest : List (List Char)) : c ∈ intercalateChar c (p :: q :: rest) := by
  show c ∈ p ++ c :: intercalateChar c (q :: rest)
  rw [List.mem_append]
  right
  exact List.mem_cons_self _ _

/-- Discriminator for the `List` variant. -/
def isListVal : EnvValue → Bool
  | .List _ => true
  | _ => false

/-- Canonical environment values: those whose string projection parses
back to the same value.  Strings and paths are canonical when their text
survives the type-detection steps of `parse_from_string`; integers when
within the `i64` range; decimals when their text is a normalized decimal
literal; lists when flat, of length at least two, with canonical
elements (the claim is stated only up to `Decimal` normalization and
`List` element parsing, which this predicate makes precise). -/
def canonicalEnv : EnvValue → Bool
  | .Str s =>
    !s.isEmpty && !(s == chars "True") && !(s == chars "False") &&
      !(!s.contains '.' && (parseI64 s).isSome) &&
      !(s.contains '.' && isF64Lit s) && !s.contains ':' && !pathlike s
  | .Integer i => decide (-(2 ^ 63) ≤ i) && decide (i < 2 ^ 63)
  | .Decimal d => d.contains '.' && isF64Lit d
  | .Bool _ => true
  | .None => true
  | .List items =>
    decide (2 ≤ items.length) &&
      items.attach.all (fun x => canonicalEnv x.1 && !isListVal x.1)
  | .FilePath p => pathlike p && !p.contains ':'
decreasing_by
  have := List.sizeOf_lt_of_mem x.2
  simp
  omega

theorem canonicalEnv_list (items : List EnvValue) :
    canonicalEnv (.List items) =
      (decide (2 ≤ items.length) &&
        items.all (fun x => canonicalEnv x && !isListVal x)) := by
  rw [canonicalEnv]
  rw [attach_all items (fun x => canonicalEnv x && !isListVal x)]

theorem repr_no_colon (v : EnvValue) (hc : canonicalEnv v = true)
    (hnl : isListVal v = false) : (':' : Char) ∉ to_string_repr v := by
  cases v with
  | Str s =>
    simp only [canonicalEnv, Bool.and_eq_true] at hc
    have h6 := hc.1.2
    rw [Bool.not_eq_true'] at h6
    simp only [to_string_repr]
    intro hmem
    simp [hmem] at h6
  | Integer i =>
    simp only [to_string_repr]
    intro hmem
    rcases intToChars_mem i ':' hmem with hd | hd
    · exact absurd hd (by decide)
    · exact absurd hd (by decide)
  | Decimal d =>
    simp only [canonicalEnv, Bool.and_eq_true] at hc
    simp only [to_string_repr]
    intro hmem
    rw [isF64Lit_no_colon d hmem] at hc
    exact absurd hc.2 (by decide)
  | Bool b =>
    cases b <;> simp only [to_string_repr] <;> decide
  | None =>
    simp only [to_string_repr]
    exact List.not_mem_nil _
  | List items => simp [isListVal] at hnl
  | FilePath p =>
    simp only [canonicalEnv, Bool.and_eq_true] at hc
    have h2 := hc.2
    rw [Bool.not_eq_true'] at h2
    simp only [to_string_repr]
    intro hmem
    simp [hmem] at h2

theorem parse_roundtrip_aux :
    ∀ (n : Nat) (v : EnvValue), sizeOf v ≤ n → canonicalEnv v = true →
      parse_from_string (to_string_repr v) = v := by
  intro n
  induction n with
  | zero => intro v h _; cases v <;> simp at h <;> omega
  | succ n ih =>
    intro v hsize hcan
    cases v with
    | Str s =>
      simp only [canonicalEnv, Bool.and_eq_true] at hcan
      obtain ⟨⟨⟨⟨⟨⟨h1, h2⟩, h3⟩, h4⟩, h5⟩, h6⟩, h7⟩ := hcan
      rw [Bool.not_eq_true'] at h1 h2 h3 h4 h5 h6 h7
      simp only [to_string_repr]
      rw [parse_from_string_eq]
      rw [if_neg (by simp [h1]), if_neg (by simpa using h2),
        if_neg (by simpa using h3), if_neg (by rw [h4]; simp),
        if_neg (by rw [h5]; simp), if_neg (by rw [h6]; simp),
        if_neg (by simp [h7])]
    | Integer i =>
      simp only [canonicalEnv, Bool.and_eq_true, decide_eq_true_eq] at hcan
      obtain ⟨hr1, hr2⟩ := hcan
      have hpi : parseI64 (intToChars i) = some i := parseI64_intToChars i hr1 hr2
      have hdot : ('.' : Char) ∉ intToChars i := by
        intro hmem
        rcases intToChars_mem i '.' hmem with hd | hd
        · exact absurd hd (by decide)
        · exact absurd hd (by decide)
      have hT : ¬(intToChars i = chars "True") := by
        intro heq
        have : ('T' : Char) ∈ intToChars i := by rw [heq]; decide
        rcases intToChars_mem i 'T' this with hd | hd
        · exact absurd hd (by decide)
        · exact absurd hd (by decide)
      have hF : ¬(intToChars i = chars "False") := by
        intro heq
        have : ('F' : Char) ∈ intToChars i := by rw [heq]; decide
        rcases intToChars_mem i 'F' this with hd | hd
        · exact absurd hd (by decide)
        · exact absurd hd (by decide)
      simp only [to_string_repr]
      rw [parse_from_string_eq]
      rw [if_neg (by simp [intToChars_ne_nil i]), if_neg hT, if_neg hF,
        if_pos (by simp [hpi]; simpa using hdot)]
      rw [hpi]
      rfl
    | Decimal d =>
      simp only [canonicalEnv, Bool.and_eq_true] at hcan
      obtain ⟨hdot, hlit⟩ := hcan
      have hmem : ('.' : Char) ∈ d := by simpa using hdot
      have hne : d ≠ [] := by intro h; rw [h] at hmem; simp at hmem
      have hT : ¬(d = chars "True") := by
        intro heq; rw [heq] at hmem; exact absurd hmem (by decide)
      have hF : ¬(d = chars "False") := by
        intro heq; rw [heq] at hmem; exact absurd hmem (by decide)
      simp only [to_string_repr]
      rw [parse_from_string_eq]
      rw [if_neg (by simpa using hne), if_neg hT, if_neg hF,
        if_neg (by rw [hdot]; simp), if_pos (by rw [hdot, hlit]; rfl)]
    | Bool b =>
      cases b <;> simp only [to_string_repr] <;>
        rw [parse_from_string_eq] <;> decide
    | None =>
      simp only [to_string_repr]
      rw [parse_from_string_eq]
      decide
    | List items =>
      rw [canonicalEnv_list] at hcan
      rw [Bool.and_eq_true, decide_eq_true_eq] at hcan
      obtain ⟨hlen, hall⟩ := hcan
      rw [List.all_eq_true] at hall
      have helem : ∀ x ∈ items, canonicalEnv x = true ∧ isListVal x = false := by
        intro x hx
        have := hall x hx
        rw [Bool.and_eq_true, Bool.not_eq_true'] at this
        exact this
      have hnocolon : ∀ p ∈ items.map to_string_repr, (':' : Char) ∉ p := by
        intro p hp
        rw [List.mem_map] at hp
        rcases hp with ⟨x, hx, rfl⟩
        exact repr_no_colon x (helem x hx).1 (helem x hx).2
      rcases items with _ | ⟨a, rest⟩
      · simp at hlen
      rcases rest with _ | ⟨b, rest2⟩
      · simp at hlen
      rw [to_string_repr_list]
      have hjoin :
          intercalateChar ':' ((a :: b :: rest2).map to_string_repr) =
            intercalateChar ':'
              (to_string_repr a :: to_string_repr b :: rest2.map to_string_repr) := by
        simp
      rw [hjoin]
      have hcmem : (':' : Char) ∈
          intercalateChar ':'
            (to_string_repr a :: to_string_repr b :: rest2.map to_string_repr) :=
        mem_intercalateChar ':' _ _ _
      set joined :=
        intercalateChar ':'
          (to_string_repr a :: to_string_repr b :: rest2.map to_string_repr) with hjdef
      have hne : joined ≠ [] := by
        intro h; rw [h] at hcmem; simp at hcmem
      have hT : ¬(joined = chars "True") := by
        intro heq; rw [heq] at hcmem; exact absurd hcmem (by decide)
      have hF : ¬(joined = chars "False") := by
        intro heq; rw [heq] at hcmem; exact absurd hcmem (by decide)
      have hpi : parseI64 joined = none :=
        parseI64_of_mem_bad joined ':' hcmem (by decide) (by decide) (by decide)
      have hlit : isF64Lit joined = false := isF64Lit_no_colon joined hcmem
      have hcont : joined.contains ':' = true := by simpa using hcmem
      rw [parse_from_string_eq]
      rw [if_neg (by simpa using hne), if_neg hT, if_neg hF,
        if_neg (by simp [hpi]), if_neg (by simp [hlit]), if_pos hcont]
      have hsplit :
          splitChar ':' joined =
            to_string_repr a :: to_string_repr b :: rest2.map to_string_repr := by
        rw [hjdef]
        apply splitChar_intercalateChar
        · simp
        · intro p hp
          apply hnocolon
          simpa using hp
      rw [hsplit]
      have hback :
          (to_string_repr a :: to_string_repr b :: rest2.map to_string_repr) =
            (a :: b :: rest2).map to_string_repr := by simp
      rw [hback, List.map_map]
      have hid : ∀ x ∈ a :: b :: rest2,
          (parse_from_string ∘ to_string_repr) x = x := by
        intro x hx
        have hxsize : sizeOf x ≤ n := by
          have hlt := List.sizeOf_lt_of_mem hx
          simp at hsize hlt
          omega
        exact ih x hxsize (helem x hx).1
      rw [List.map_congr_left hid]
      simp
    | FilePath p =>
      simp only [canonicalEnv, Bool.and_eq_true] at hcan
      obtain ⟨hpath, hnc⟩ := hcan
      rw [Bool.not_eq_true'] at hnc
      have hmem : ('/' : Char) ∈ p := pathlike_mem_slash p hpath
      have hne : p ≠ [] := by intro h; rw [h] at hmem; simp at hmem
      have hT : ¬(p = chars "True") := by
        intro heq; rw [heq] at hmem; exact absurd hmem (by decide)
      have hF : ¬(p = chars "False") := by
        intro heq; rw [heq] at hmem; exact absurd hmem (by decide)
      have hpi : parseI64 p = none :=
        parseI64_of_mem_bad p '/' hmem (by decide) (by decide) (by decide)
      have hlit : isF64Lit p = false := isF64Lit_no_slash p hmem
      simp only [to_string_repr]
      rw [parse_from_string_eq]
      rw [if_neg (by simpa using hne), if_neg hT, if_neg hF,
        if_neg (by simp [hpi]), if_neg (by simp [hlit]),
        if_neg (by rw [hnc]; simp), if_pos hpath]

/-- Routing classification of environment keys: one tag per literal
string arm of the `match` in `ShellEnvironment::get`/`set`; `plain` is
the wildcard arm (the open table). -/
inductive KeyClass where
  | ppidKey | oldpwdKey | ps1Key | ps2Key | ps4Key | envKey
  | lastExitKey | pidKey | plain
deriving DecidableEq

/-- Which reserved slot, if any, an environment name names. -/
def classifyKey (key : String) : KeyClass :=
  if key = "PPID" then .ppidKey
  else if key = "OLDPWD" then .oldpwdKey
  else if key = "PS1" then .ps1Key
  else if key = "PS2" then .ps2Key
  else if key = "PS4" then .ps4Key
  else if key = "ENV" then .envKey
  else if key = "?" then .lastExitKey
  else if key = "$" then .pidKey
  else .plain

/-- The shell environment state (src/shell/env.rs,
`struct ShellEnvironment`): the open table, the directory stack, and
the reserved slots. -/
structure ShellEnvironment where
  env_vars : List (String × EnvValue)
  dir_stack : List (List Char)
  last_exit : EnvValue
  pid : EnvValue
  ppid : EnvValue
  old_pwd : EnvValue
  ps1 : EnvValue
  ps2 : EnvValue
  ps4 : EnvValue
deriving DecidableEq

/-- `ShellEnvironment::get`.  The outer `Option` models the `ENV` panic
(`none` = panic); the inner `Option` is the Rust return value. -/
def envGet (env : ShellEnvironment) (key : String) :
    Option (Option EnvValue) :=
  match classifyKey key with
  | .ppidKey => some (some env.ppid)
  | .oldpwdKey => some (some env.old_pwd)
  | .ps1Key => some (some env.ps1)
  | .ps2Key => some (some env.ps2)
  | .ps4Key => some (some env.ps4)
  | .envKey => none
  | .lastExitKey => some (some env.last_exit)
  | .pidKey => some (some env.pid)
  | .plain => some (env.env_vars.lookup key)

/-- `ShellEnvironment::set`.  Note that the Rust `match` in `set` has no
arms for `?` and `$`: those keys fall through to the wildcard and are
inserted into the open table. -/
def envSet (env : ShellEnvironment) (key : String) (value : EnvValue) :
    Option ShellEnvironment :=
  match classifyKey key with
  | .ppidKey => some { env with ppid := value }
  | .oldpwdKey => some { env with old_pwd := value }
  | .ps1Key => some { env with ps1 := value }
  | .ps2Key => some { env with ps2 := value }
  | .ps4Key => some { env with ps4 := value }
  | .envKey => none
  | .lastExitKey | .pidKey | .plain =>
    some { env with env_vars := mapInsert key value env.env_vars }

/-- `ShellEnvironment::unset`: removes from the open table only. -/
def envUnset (env : ShellEnvironment) (key : String) : ShellEnvironment :=
  { env with env_vars := mapErase key env.env_vars }

/-- `ShellEnvironment::keys` (the open table only). -/
def envKeys (env : ShellEnvironment) : List String :=
  env.env_vars.map Prod.fst

/-- `ShellEnvironment::len` (the open table only). -/
def envLen (env : ShellEnvironment) : Nat := env.env_vars.length

/-- Whether an entry would make `CString::new` fail. -/
def hasNulByte (s : List Char) : Bool := s.contains (Char.ofNat 0)

/-- `ShellEnvironment::to_envp`: one `KEY=VALUE` entry per open-table
binding; entries with interior NUL are dropped by `filter_map`. -/
def to_envp (env : ShellEnvironment) : List (List Char) :=
  env.env_vars.filterMap fun p =>
    let entry := (chars p.1) ++ '=' :: to_string_repr p.2
    if hasNulByte entry then none else some entry

/-- `set_last_exit` (src/shell/env.rs lines 310-314): writes the
reserved slot directly. -/
def set_last_exit (env : ShellEnvironment) (exit_code : Nat) :
    ShellEnvironment :=
  { env with last_exit := .Integer (Int.ofNat exit_code) }

theorem lookup_cons {α : Type} (a k : String) (b : α) (t : List (String × α)) :
    List.lookup k ((a, b) :: t) =
      if k == a then some b else List.lookup k t := by
  rcases h : k == a with _ | _ <;> simp [List.lookup, h]

theorem lookup_mapErase_ne {α : Type} (l : List (String × α)) (k k2 : String)
    (h : ¬k = k2) : (mapErase k2 l).lookup k = l.lookup k := by
  induction l with
  | nil => rfl
  | cons p t ih =>
    rcases p with ⟨a, b⟩
    by_cases hak2 : a = k2
    · have hka : (k == a) = false := by
        rw [beq_eq_false_iff_ne]
        intro h2; rw [h2, hak2] at h; exact h rfl
      simp only [mapErase, List.filter]
      rw [show (a != k2) = false by simp [hak2]]
      rw [lookup_cons, hka]
      simp only [mapErase] at ih
      rw [ih]
      simp
    · simp only [mapErase, List.filter]
      rw [show (a != k2) = true by simp [hak2]]
      rw [lookup_cons, lookup_cons]
      by_cases hka : (k == a) = true
      · rw [if_pos (by rw [hka]), if_pos (by rw [hka])]
      · have hka2 : (k == a) = false := by
          rcases hb : k == a with _ | _
          · rfl
          · exact absurd hb hka
        rw [if_neg (by rw [hka2]; simp), if_neg (by rw [hka2]; simp)]
        simp only [mapErase] at ih
        rw [ih]

theorem lookup_mapErase_self {α : Type} (l : List (String × α)) (k : String) :
    (mapErase k l).lookup k = none := by
  induction l with
  | nil => rfl
  | cons p t ih =>
    rcases p with ⟨a, b⟩
    by_cases hak : a = k
    · simp only [mapErase, List.filter]
      rw [show (a != k) = false by simp [hak]]
      simp only [mapErase] at ih
      exact ih
    · simp only [mapErase, List.filter]
      rw [show (a != k) = true by simp [hak]]
      rw [lookup_cons]
      rw [if_neg (by simp only [beq_iff_eq]; exact fun h2 => hak h2.symm)]
      simp only [mapErase] at ih
      exact ih

theorem lookup_mapInsert_self {α : Type} (l : List (String × α))
    (k : String) (v : α) : (mapInsert k v l).lookup k = some v := by
  simp [mapInsert, List.lookup]

theorem lookup_mapInsert_ne {α : Type} (l : List (String × α))
    (k k2 : String) (v : α) (h : ¬k = k2) :
    (mapInsert k2 v l).lookup k = l.lookup k := by
  unfold mapInsert
  rw [lookup_cons]
  rw [if_neg (by simp only [beq_iff_eq]; exact h)]
  exact lookup_mapErase_ne l k k2 h

/-- One environment mutation that an inner command may perform in the
parent process while running under `execute_with_env` (builtins call
`set_var`/`unset_var`; forked children cannot touch the parent store,
and `set_last_exit` is only called by the top-level `execute`). -/
inductive EnvOp where
  | setv (key : String) (value : EnvValue)
  | unsetv (key : String)

/-- Apply one mutation (propagating the `ENV` panic). -/
def applyOp (env : ShellEnvironment) : EnvOp → Option ShellEnvironment
  | .setv k v => envSet env k v
  | .unsetv k => some (envUnset env k)

/-- Run a sequence of mutations (the inner command's parent-side
effect). -/
def applyOps : ShellEnvironment → List EnvOp → Option ShellEnvironment
  | env, [] => some env
  | env, op :: rest =>
    match applyOp env op with
    | none => none
    | some env2 => applyOps env2 rest

/-- The snapshot loop of `execute_with_env`: for each overlay key,
capture presence and value via `get`. -/
def saveVars (env : ShellEnvironment) :
    List (String × EnvValue) → Option (List (String × Option EnvValue))
  | [] => some []
  | (k, _) :: rest =>
    match envGet env k with
    | none => none
    | some sv =>
      match saveVars env rest with
      | none => none
      | some l => some ((k, sv) :: l)

/-- The overlay-application loop of `execute_with_env`. -/
def applyOverlay :
    ShellEnvironment → List (String × EnvValue) → Option ShellEnvironment
  | env, [] => some env
  | env, (k, v) :: rest =>
    match envSet env k v with
    | none => none
    | some env2 => applyOverlay env2 rest

/-- The restore loop of `execute_with_env`: saved `Some` values are
written back with `set`, saved `None` entries are removed with
`unset`. -/
def restoreSaved :
    ShellEnvironment → List (String × Option EnvValue) → Option ShellEnvironment
  | env, [] => some env
  | env, (k, some v) :: rest =>
    match envSet env k v with
    | none => none
    | some env2 => restoreSaved env2 rest
  | env, (k, none) :: rest => restoreSaved (envUnset env k) rest

/-- `execute_with_env` (src/shell/exec/mod.rs lines 134-170; the
captured variant in src/shell/exec/capture.rs lines 190-229 has the
identical environment discipline): snapshot prior bindings for every
overlay key, apply the overlay, run the inner spec, restore.  The inner
spec is modelled by the sequence of environment mutations it performs in
the parent process; `none` models a panic anywhere along the way. -/
def execute_with_env (env : ShellEnvironment)
    (overlay : List (String × EnvValue)) (inner : List EnvOp) :
    Option ShellEnvironment :=
  match saveVars env overlay with
  | none => none
  | some saved =>
    match applyOverlay env overlay with
    | none => none
    | some env1 =>
      match applyOps env1 inner with
      | none => none
      | some env2 => restoreSaved env2 saved

theorem classifyKey_ppid {k : String} (h : classifyKey k = .ppidKey) :
    k = "PPID" := by
  unfold classifyKey at h; split_ifs at h <;> simp_all

theorem classifyKey_oldpwd {k : String} (h : classifyKey k = .oldpwdKey) :
    k = "OLDPWD" := by
  unfold classifyKey at h; split_ifs at h <;> simp_all

theorem classifyKey_ps1 {k : String} (h : classifyKey k = .ps1Key) :
    k = "PS1" := by
  unfold classifyKey at h; split_ifs at h <;> simp_all

theorem classifyKey_ps2 {k : String} (h : classifyKey k = .ps2Key) :
    k = "PS2" := by
  unfold classifyKey at h; split_ifs at h <;> simp_all

theorem classifyKey_ps4 {k : String} (h : classifyKey k = .ps4Key) :
    k = "PS4" := by
  unfold classifyKey at h; split_ifs at h <;> simp_all

theorem classifyKey_env {k : String} (h : classifyKey k = .envKey) :
    k = "ENV" := by
  unfold classifyKey at h; split_ifs at h <;> simp_all

theorem classifyKey_lastExit {k : String} (h : classifyKey k = .lastExitKey) :
    k = "?" := by
  unfold classifyKey at h; split_ifs at h <;> simp_all

theorem classifyKey_pid {k : String} (h : classifyKey k = .pidKey) :
    k = "$" := by
  unfold classifyKey at h; split_ifs at h <;> simp_all

theorem envSet_fields (env : ShellEnvironment) (k : String) (v : EnvValue)
    (env2 : ShellEnvironment) (h : envSet env k v = some env2) :
    env2.last_exit = env.last_exit ∧ env2.pid = env.pid := by
  unfold envSet at h
  cases hc : classifyKey k <;> rw [hc] at h <;>
    first
      | (injection h with h2; subst h2; exact ⟨rfl, rfl⟩)
      | exact absurd h (by simp)

theorem envSet_get_other (env : ShellEnvironment) (k k2 : String)
    (v : EnvValue) (hne : ¬k = k2) (env2 : ShellEnvironment)
    (h : envSet env k2 v = some env2) : envGet env2 k = envGet env k := by
  unfold envSet at h
  cases hc2 : classifyKey k2 <;> rw [hc2] at h
  case envKey => exact absurd h (by simp)
  case ppidKey =>
    injection h with h2; subst h2
    cases hc : classifyKey k
    case ppidKey =>
      exact absurd ((classifyKey_ppid hc).trans (classifyKey_ppid hc2).symm) hne
    all_goals (unfold envGet; rw [hc])
  case oldpwdKey =>
    injection h with h2; subst h2
    cases hc : classifyKey k
    case oldpwdKey =>
      exact absurd ((classifyKey_oldpwd hc).trans (classifyKey_oldpwd hc2).symm) hne
    all_goals (unfold envGet; rw [hc])
  case ps1Key =>
    injection h with h2; subst h2
    cases hc : classifyKey k
    case ps1Key =>
      exact absurd ((classifyKey_ps1 hc).trans (classifyKey_ps1 hc2).symm) hne
    all_goals (unfold envGet; rw [hc])
  case ps2Key =>
    injection h with h2; subst h2
    cases hc : classifyKey k
    case ps2Key =>
      exact absurd ((classifyKey_ps2 hc).trans (classifyKey_ps2 hc2).symm) hne
    all_goals (unfold envGet; rw [hc])
  case ps4Key =>
    injection h with h2; subst h2
    cases hc : classifyKey k
    case ps4Key =>
      exact absurd ((classifyKey_ps4 hc).trans (classifyKey_ps4 hc2).symm) hne
    all_goals (unfold envGet; rw [hc])
  all_goals
    (injection h with h2; subst h2;
     cases hc : classifyKey k <;> unfold envGet <;> rw [hc] <;>
       first
         | rfl
         | rw [lookup_mapInsert_ne env.env_vars k k2 v hne])

theorem envUnset_get_other (env : ShellEnvironment) (k k2 : String)
    (hne : ¬k = k2) : envGet (envUnset env k2) k = envGet env k := by
  cases hc : classifyKey k <;> unfold envGet envUnset <;> rw [hc] <;>
    first
      | rfl
      | rw [lookup_mapErase_ne env.env_vars k k2 hne]

theorem envSet_get_self (env : ShellEnvironment) (k : String) (v : EnvValue)
    (env2 : ShellEnvironment) (h : envSet env k v = some env2)
    (hk1 : classifyKey k ≠ .lastExitKey) (hk2 : classifyKey k ≠ .pidKey) :
    envGet env2 k = some (some v) := by
  unfold envSet at h
  cases hc : classifyKey k <;> rw [hc] at h
  case envKey => exact absurd h (by simp)
  case lastExitKey => exact absurd hc hk1
  case pidKey => exact absurd hc hk2
  case plain =>
    injection h with h2; subst h2
    unfold envGet; rw [hc]
    rw [show ({ env with env_vars := mapInsert k v env.env_vars } :
      ShellEnvironment).env_vars = mapInsert k v env.env_vars from rfl]
    rw [lookup_mapInsert_self]
  all_goals (injection h with h2; subst h2; unfold envGet; rw [hc])

theorem envUnset_get_self (env : ShellEnvironment) (k : String)
    (hplain : classifyKey k = .plain) :
    envGet (envUnset env k) k = some none := by
  unfold envGet envUnset; rw [hplain]
  rw [show ({ env with env_vars := mapErase k env.env_vars } :
    ShellEnvironment).env_vars = mapErase k env.env_vars from rfl]
  rw [lookup_mapErase_self]

theorem applyOverlay_fields :
    ∀ (overlay : List (String × EnvValue)) (env env2 : ShellEnvironment),
      applyOverlay env overlay = some env2 →
      env2.last_exit = env.last_exit ∧ env2.pid = env.pid := by
  intro overlay
  induction overlay with
  | nil =>
    intro env env2 h
    injection h with h2; subst h2; exact ⟨rfl, rfl⟩
  | cons p rest ih =>
    intro env env2 h
    rcases p with ⟨k, v⟩
    simp only [applyOverlay] at h
    rcases hset : envSet env k v with _ | env1
    · rw [hset] at h; exact absurd h (by simp)
    · rw [hset] at h
      have h1 := envSet_fields env k v env1 hset
      have h2 := ih env1 env2 h
      exact ⟨h2.1.trans h1.1, h2.2.trans h1.2⟩

theorem applyOps_fields :
    ∀ (ops : List EnvOp) (env env2 : ShellEnvironment),
      applyOps env ops = some env2 →
      env2.last_exit = env.last_exit ∧ env2.pid = env.pid := by
  intro ops
  induction ops with
  | nil =>
    intro env env2 h
    injection h with h2; subst h2; exact ⟨rfl, rfl⟩
  | cons op rest ih =>
    intro env env2 h
    simp only [applyOps] at h
    rcases hop : applyOp env op with _ | env1
    · rw [hop] at h; exact absurd h (by simp)
    · rw [hop] at h
      have h1 : env1.last_exit = env.last_exit ∧ env1.pid = env.pid := by
        cases op with
        | setv k v => exact envSet_fields env k v env1 hop
        | unsetv k =>
          simp only [applyOp] at hop
          injection hop with h3
          subst h3
          exact ⟨rfl, rfl⟩
      have h2 := ih env1 env2 h
      exact ⟨h2.1.trans h1.1, h2.2.trans h1.2⟩

theorem restoreSaved_fields :
    ∀ (saved : List (String × Option EnvValue)) (env env2 : ShellEnvironment),
      restoreSaved env saved = some env2 →
      env2.last_exit = env.last_exit ∧ env2.pid = env.pid := by
  intro saved
  induction saved with
  | nil =>
    intro env env2 h
    injection h with h2; subst h2; exact ⟨rfl, rfl⟩
  | cons p rest ih =>
    intro env env2 h
    rcases p with ⟨k, sv⟩
    rcases sv with _ | v
    · simp only [restoreSaved] at h
      have h2 := ih _ env2 h
      exact ⟨h2.1, h2.2⟩
    · simp only [restoreSaved] at h
      rcases hset : envSet env k v with _ | env1
      · rw [hset] at h; exact absurd h (by simp)
      · rw [hset] at h
        have h1 := envSet_fields env k v env1 hset
        have h2 := ih env1 env2 h
        exact ⟨h2.1.trans h1.1, h2.2.trans h1.2⟩

theorem restoreSaved_get_other :
    ∀ (saved : List (String × Option EnvValue)) (env env2 : ShellEnvironment)
      (k : String), k ∉ saved.map Prod.fst →
      restoreSaved env saved = some env2 →
      envGet env2 k = envGet env k := by
  intro saved
  induction saved with
  | nil =>
    intro env env2 k _ h
    injection h with h2; subst h2; rfl
  | cons p rest ih =>
    intro env env2 k hk h
    rcases p with ⟨k1, sv⟩
    have hkk1 : ¬k = k1 := by
      intro h2; apply hk; rw [h2]; exact List.mem_cons_self _ _
    have hkrest : k ∉ rest.map Prod.fst := by
      intro h2; apply hk; exact List.mem_cons_of_mem _ h2
    rcases sv with _ | v
    · simp only [restoreSaved] at h
      have := ih _ env2 k hkrest h
      rw [this, envUnset_get_other env k k1 hkk1]
    · simp only [restoreSaved] at h
      rcases hset : envSet env k1 v with _ | env1
      · rw [hset] at h; exact absurd h (by simp)
      · rw [hset] at h
        have := ih env1 env2 k hkrest h
        rw [this, envSet_get_other env k k1 v hkk1 env1 hset]

theorem restoreSaved_restores :
    ∀ (saved : List (String × Option EnvValue)) (env env2 : ShellEnvironment)
      (k : String) (sv : Option EnvValue), (k, sv) ∈ saved →
      (saved.map Prod.fst).Nodup →
      classifyKey k ≠ .lastExitKey → classifyKey k ≠ .pidKey →
      (sv = none → classifyKey k = .plain) →
      restoreSaved env saved = some env2 →
      envGet env2 k = some sv := by
  intro saved
  induction saved with
  | nil => intro env env2 k sv hmem; simp at hmem
  | cons p rest ih =>
    intro env env2 k sv hmem hnodup hk1 hk2 hnone h
    rcases p with ⟨k1, sv1⟩
    rw [List.map_cons, List.nodup_cons] at hnodup
    by_cases hkk1 : k = k1
    · subst hkk1
      have hsv : sv = sv1 := by
        rcases List.mem_cons.mp hmem with h2 | h2
        · exact congrArg Prod.snd h2
        · exact absurd (List.mem_map_of_mem Prod.fst h2) hnodup.1
      subst hsv
      rcases sv with _ | v
      · simp only [restoreSaved] at h
        have hplain := hnone rfl
        have hstep := envUnset_get_self env k hplain
        have hrest := restoreSaved_get_other rest _ env2 k hnodup.1 h
        rw [hrest, hstep]
      · simp only [restoreSaved] at h
        rcases hset : envSet env k v with _ | env1
        · rw [hset] at h; exact absurd h (by simp)
        · rw [hset] at h
          have hstep := envSet_get_self env k v env1 hset hk1 hk2
          have hrest := restoreSaved_get_other rest env1 env2 k hnodup.1 h
          rw [hrest, hstep]
    · have hmem2 : (k, sv) ∈ rest := by
        rcases List.mem_cons.mp hmem with h2 | h2
        · injection h2 with h3 _; exact absurd h3 hkk1
        · exact h2
      rcases sv1 with _ | v1
      · simp only [restoreSaved] at h
        exact ih _ env2 k sv hmem2 hnodup.2 hk1 hk2 hnone h
      · simp only [restoreSaved] at h
        rcases hset : envSet env k1 v1 with _ | env1
        · rw [hset] at h; exact absurd h (by simp)
        · rw [hset] at h
          exact ih env1 env2 k sv hmem2 hnodup.2 hk1 hk2 hnone h

theorem saveVars_spec :
    ∀ (overlay : List (String × EnvValue)) (env : ShellEnvironment)
      (saved : List (String × Option EnvValue)),
      saveVars env overlay = some saved →
      saved.map Prod.fst = overlay.map Prod.fst ∧
        ∀ pr ∈ saved, envGet env pr.1 = some pr.2 := by
  intro overlay
  induction overlay with
  | nil =>
    intro env saved h
    injection h with h2; subst h2
    exact ⟨rfl, by simp⟩
  | cons p rest ih =>
    intro env saved h
    rcases p with ⟨k, v⟩
    simp only [saveVars] at h
    rcases hget : envGet env k with _ | sv
    · rw [hget] at h; exact absurd h (by simp)
    · rw [hget] at h
      rcases hsave : saveVars env rest with _ | l
      · rw [hsave] at h; exact absurd h (by simp)
      · rw [hsave] at h
        injection h with h2; subst h2
        have hrest := ih env l hsave
        refine ⟨by simp [hrest.1], ?_⟩
        intro pr hpr
        rcases List.mem_cons.mp hpr with rfl | hpr2
        · exact hget
        · exact hrest.2 pr hpr2

/-- C1: executing a with-env wrapper leaves the environment, as observed
through `get`, identical on every overlay key, whatever mutations the
inner command performed. -/
theorem with_env_scoping (env env2 : ShellEnvironment)
    (overlay : List (String × EnvValue)) (inner : List EnvOp)
    (hnodup : (overlay.map Prod.fst).Nodup)
    (hrun : execute_with_env env overlay inner = some env2) :
    ∀ k ∈ overlay.map Prod.fst, envGet env2 k = envGet env k := by
  intro k hk
  unfold execute_with_env at hrun
  rcases hsave : saveVars env overlay with _ | saved
  · rw [hsave] at hrun; exact absurd hrun (by simp)
  rw [hsave] at hrun
  dsimp only at hrun
  rcases happ : applyOverlay env overlay with _ | env1
  · rw [happ] at hrun; exact absurd hrun (by simp)
  rw [happ] at hrun
  dsimp only at hrun
  rcases hops : applyOps env1 inner with _ | envMid
  · rw [hops] at hrun; exact absurd hrun (by simp)
  rw [hops] at hrun
  dsimp only at hrun
  have hspec := saveVars_spec overlay env saved hsave
  have hkeys : k ∈ saved.map Prod.fst := by rw [hspec.1]; exact hk
  rcases List.mem_map.mp hkeys with ⟨pr, hpr, hfst⟩
  rcases pr with ⟨k0, sv⟩
  have hk0 : k0 = k := hfst
  subst hk0
  have hget0 : envGet env k0 = some sv := hspec.2 (k0, sv) hpr
  by_cases hk1 : classifyKey k0 = .lastExitKey
  · have f1 := applyOverlay_fields overlay env env1 happ
    have f2 := applyOps_fields inner env1 envMid hops
    have f3 := restoreSaved_fields saved envMid env2 hrun
    unfold envGet
    rw [hk1, f3.1, f2.1, f1.1]
  by_cases hk2 : classifyKey k0 = .pidKey
  · have f1 := applyOverlay_fields overlay env env1 happ
    have f2 := applyOps_fields inner env1 envMid hops
    have f3 := restoreSaved_fields saved envMid env2 hrun
    unfold envGet
    rw [hk2, f3.2, f2.2, f1.2]
  have hnodupS : (saved.map Prod.fst).Nodup := by rw [hspec.1]; exact hnodup
  have hnone : sv = none → classifyKey k0 = .plain := by
    intro hsv
    subst hsv
    cases hc : classifyKey k0 <;> rw [envGet, hc] at hget0 <;>
      first
        | exact hc
        | exact absurd hget0 (by simp)
  have hres := restoreSaved_restores saved envMid env2 k0 sv hpr hnodupS
    hk1 hk2 hnone hrun
  rw [hres, hget0]

/-- Redirect targets (src/bindings.rs `enum RedirectTarget`). -/
inductive RedirectTarget where
  | FilePath (path : String) (append : Bool)
  | FileDescriptor (fd : Int)

/-- The command algebra (src/bindings.rs `enum Runnable`). -/
inductive Runnable where
  | Command (prog : String) (args : List String)
  | Pipeline (predecessors : List Runnable) (final_cmd : Runnable)
  | Subshell (runnable : Runnable)
  | Redirect (runnable : Runnable) (target : RedirectTarget)
  | WithEnv (runnable : Runnable) (env_overlay : List (String × EnvValue))

/-- Discriminator for the `Pipeline` variant. -/
def isPipeline : Runnable → Bool
  | .Pipeline _ _ => true
  | _ => false

/-- Discriminator for the `Redirect` variant. -/
def isRedirect : Runnable → Bool
  | .Redirect _ _ => true
  | _ => false

/-- Flatness: no `Pipeline` anywhere in the tree has a `Pipeline` as an
immediate child in `predecessors` or `final_cmd`. -/
def noNestedPipe : Runnable → Bool
  | .Command _ _ => true
  | .Pipeline ps f =>
    (ps.attach.all fun x => !isPipeline x.1 && noNestedPipe x.1) &&
      !isPipeline f && noNestedPipe f
  | .Subshell r => noNestedPipe r
  | .Redirect r _ => noNestedPipe r
  | .WithEnv r _ => noNestedPipe r
decreasing_by
  all_goals first
    | (have hlt := List.sizeOf_lt_of_mem x.2; simp; omega)
    | (simp; omega)
    | simp
    | (have hlt := List.sizeOf_lt_of_mem x.2; simp)

theorem noNestedPipe_pipeline (ps : List Runnable) (f : Runnable) :
    noNestedPipe (.Pipeline ps f) =
      ((ps.all fun x => !isPipeline x && noNestedPipe x) &&
        !isPipeline f && noNestedPipe f) := by
  rw [noNestedPipe]
  rw [attach_all ps (fun x => !isPipeline x && noNestedPipe x)]

/-- Error text of `__or__` for a redirect on the left. -/
def pipeFromRedirectMsg : String :=
  "Cannot pipe from a redirected command - redirection must be the final operation"

/-- Error text of `__or__` for a redirect on the right. -/
def pipeToRedirectMsg : String :=
  "Cannot pipe to a redirected command - redirection must be the final operation"

/-- `ShipRunnable::__or__` (src/bindings.rs lines 246-326): redirects on
either side are rejected, otherwise the operands are flattened into one
pipeline.  Arms preserve the Rust case analysis (atomic operands are the
non-Pipeline, non-Redirect shapes). -/
def orCompose (lhs rhs : Runnable) : Except String Runnable :=
  match lhs, rhs with
  | .Redirect _ _, _ => .error pipeFromRedirectMsg
  | _, .Redirect _ _ => .error pipeToRedirectMsg
  | .Pipeline ps f, .Pipeline ps2 f2 => .ok (.Pipeline (ps ++ f :: ps2) f2)
  | .Pipeline ps f, b => .ok (.Pipeline (ps ++ [f]) b)
  | a, .Pipeline ps f => .ok (.Pipeline (a :: ps) f)
  | a, b => .ok (.Pipeline [a] b)

/-- `HashMap::extend`: insert each new binding, new values override. -/
def mergeOverlay (existing newOv : List (String × EnvValue)) :
    List (String × EnvValue) :=
  newOv.foldl (fun acc p => mapInsert p.1 p.2 acc) existing

/-- `ShipRunnable::with_env` (src/bindings.rs lines 404-439): merge into
an existing `WithEnv` wrapper, otherwise wrap. -/
def with_env (r : Runnable) (overlay : List (String × EnvValue)) :
    Runnable :=
  match r with
  | .WithEnv inner existing => .WithEnv inner (mergeOverlay existing overlay)
  | _ => .WithEnv r overlay

/-- `__gt__`/`__rshift__`: both wrap the runnable in a `Redirect`. -/
def redirectTo (r : Runnable) (t : RedirectTarget) : Runnable :=
  .Redirect r t

/-- Runnables built from the construction primitives: `prog`/`cmd`
build commands, `sub` wraps in a subshell, the redirect operators wrap
in `Redirect`, `with_env` attaches an overlay, and `__or__` (also
folded by `pipe`) composes. -/
inductive Built : Runnable → Prop where
  | cmd (prog : String) (args : List String) : Built (.Command prog args)
  | subSh {r : Runnable} : Built r → Built (.Subshell r)
  | redir {r : Runnable} (t : RedirectTarget) :
      Built r → Built (redirectTo r t)
  | withEnvOp {r : Runnable} (o : List (String × EnvValue)) :
      Built r → Built (with_env r o)
  | pipeOp {a b c : Runnable} : Built a → Built b →
      orCompose a b = .ok c → Built c

/-- Predecessor list of a runnable viewed as a pipeline (empty for
atomic runnables). -/
def preStages : Runnable → List Runnable
  | .Pipeline ps _ => ps
  | _ => []

/-- Final stage of a runnable viewed as a pipeline (itself for atomic
runnables). -/
def finStage : Runnable → Runnable
  | .Pipeline _ f => f
  | r => r

/-- All stages of a runnable viewed as a pipeline. -/
def stages (r : Runnable) : List Runnable := preStages r ++ [finStage r]

theorem orCompose_nonredirect (a b : Runnable)
    (ha : isRedirect a = false) (hb : isRedirect b = false) :
    orCompose a b =
      .ok (.Pipeline (stages a ++ preStages b) (finStage b)) := by
  cases a <;> cases b <;>
    simp_all [isRedirect, orCompose, stages, preStages, finStage]

/-- C4: every runnable built from the construction primitives (program
call, cmd, sub, with_env, the redirect operators, and pipe composition)
is flat — no `Pipeline` node has a `Pipeline` as an immediate child in
`predecessors` or `final_cmd`. -/
theorem built_flat {r : Runnable} (h : Built r) : noNestedPipe r = true := by
  induction h with
  | cmd prog args => rw [noNestedPipe]
  | subSh _ ih => rw [noNestedPipe]; exact ih
  | redir t _ ih => rw [redirectTo, noNestedPipe]; exact ih
  | withEnvOp o hb ih =>
    rename_i r
    cases r <;> simp only [with_env] <;> rw [noNestedPipe] <;>
      first
        | exact ih
        | (rw [noNestedPipe] at ih; exact ih)
  | pipeOp hba hbb hor iha ihb =>
    rename_i a b c
    by_cases hra : isRedirect a = true
    · cases a <;> simp [isRedirect] at hra
      simp [orCompose] at hor
    by_cases hrb : isRedirect b = true
    · cases a <;> cases b <;> simp [isRedirect] at hra hrb <;>
        simp [orCompose] at hor
    rw [Bool.not_eq_true] at hra hrb
    rw [orCompose_nonredirect a b hra hrb] at hor
    injection hor with hc
    subst hc
    rw [noNestedPipe_pipeline]
    have hstages : ∀ x ∈ stages a ++ preStages b,
        (!isPipeline x && noNestedPipe x) = true := by
      intro x hx
      rw [List.mem_append] at hx
      rcases hx with hx | hx
      · cases a with
        | Pipeline ps f =>
          rw [noNestedPipe_pipeline] at iha
          simp only [Bool.and_eq_true] at iha
          rw [stages, preStages, finStage] at hx
          rw [List.mem_append] at hx
          rcases hx with hx | hx
          · rw [List.all_eq_true] at iha
            exact iha.1.1 x hx
          · simp at hx
            subst hx
            simp [iha.1.2, iha.2]
        | Command prog args =>
          simp [stages, preStages, finStage] at hx
          subst hx
          simp [isPipeline]
          exact iha
        | Subshell r =>
          simp [stages, preStages, finStage] at hx
          subst hx
          simp [isPipeline]
          exact iha
        | Redirect r t => simp [isRedirect] at hra
        | WithEnv r o =>
          simp [stages, preStages, finStage] at hx
          subst hx
          simp [isPipeline]
          exact iha
      · cases b with
        | Pipeline ps f =>
          rw [noNestedPipe_pipeline] at ihb
          simp only [Bool.and_eq_true] at ihb
          rw [preStages] at hx
          rw [List.all_eq_true] at ihb
          exact ihb.1.1 x hx
        | Command prog args => simp [preStages] at hx
        | Subshell r => simp [preStages] at hx
        | Redirect r t => simp [isRedirect] at hrb
        | WithEnv r o => simp [preStages] at hx
    have hfin : (!isPipeline (finStage b) && noNestedPipe (finStage b)) = true := by
      cases b with
      | Pipeline ps f =>
        rw [noNestedPipe_pipeline] at ihb
        simp only [Bool.and_eq_true] at ihb
        rw [finStage]
        simp [ihb.1.2, ihb.2]
      | Command prog args => simp [finStage, isPipeline]; exact ihb
      | Subshell r => simp [finStage, isPipeline]; exact ihb
      | Redirect r t => simp [isRedirect] at hrb
      | WithEnv r o => simp [finStage, isPipeline]; exact ihb
    rw [Bool.and_eq_true, Bool.and_eq_true]
    refine ⟨⟨?_, ?_⟩, ?_⟩
    · rw [List.all_eq_true]
      intro x hx
      exact hstages x hx
    · rw [Bool.and_eq_true] at hfin
      exact hfin.1
    · rw [Bool.and_eq_true] at hfin
      exact hfin.2

/-- C5: pipe composition is associative on non-redirect operands:
`(A|B)|C` and `A|(B|C)` produce structurally equal trees (and equal
error behaviour, trivially absent here). -/
theorem orCompose_assoc (A B C : Runnable)
    (hA : isRedirect A = false) (hB : isRedirect B = false)
    (hC : isRedirect C = false) :
    (orCompose A B).bind (fun ab => orCompose ab C) =
      (orCompose B C).bind (fun bc => orCompose A bc) := by
  rw [orCompose_nonredirect A B hA hB, orCompose_nonredirect B C hB hC]
  show orCompose (.Pipeline (stages A ++ preStages B) (finStage B)) C =
    orCompose A (.Pipeline (stages B ++ preStages C) (finStage C))
  rw [orCompose_nonredirect (.Pipeline (stages A ++ preStages B) (finStage B))
    C (by simp [isRedirect]) hC]
  rw [orCompose_nonredirect A (.Pipeline (stages B ++ preStages C) (finStage C))
    hA (by simp [isRedirect])]
  simp [stages, preStages, finStage]

/-- The program-resolution failure taxonomy
(src/shell/exec/types.rs, `enum ProgramResolutionError`). -/
inductive ProgramResolutionError where
  | NotFound (msg : List Char)
  | NoSuchFile (msg : List Char)
  | PermissionDenied (msg : List Char)
  | InvalidPath (msg : List Char)
deriving DecidableEq

/-- `ProgramResolutionError::exit_code`
(src/shell/exec/types.rs lines 41-50). -/
def exit_code_of : ProgramResolutionError → Int
  | .NotFound _ => 127
  | .NoSuchFile _ => 127
  | .PermissionDenied _ => 126
  | .InvalidPath _ => 127

/-- The filesystem as the resolver observes it: a path either names a
file with a permission mode, or nothing.  (A `metadata` error on an
existing file is collapsed into the no-mode case.) -/
def FileSys : Type := List Char → Option Nat

/-- Whether any execute bit is set (`mode & 0o111 != 0`). -/
def executeBit (mode : Nat) : Bool := mode &&& 0o111 != 0

/-- `Path::is_absolute` on Unix: the path begins with `/`. -/
def isAbsolutePath (p : List Char) : Bool := p.head? == some '/'

/-- `PathBuf::join` for a relative file name: append with a separator
unless the directory already ends in one. -/
def joinPath (dir prog : List Char) : List Char :=
  if dir.getLast? = some '/' then dir ++ prog else dir ++ '/' :: prog

/-- Turn the `PATH` items of a list-valued `PATH` into directory
strings: `String` and `FilePath` items are accepted, anything else is
`InvalidPath`. -/
def dirsOfItems : List EnvValue →
    Except ProgramResolutionError (List (List Char))
  | [] => .ok []
  | .Str s :: rest => (dirsOfItems rest).map (fun l => s :: l)
  | .FilePath p :: rest => (dirsOfItems rest).map (fun l => p :: l)
  | _ :: _ =>
    .error (.InvalidPath (chars "PATH list contains invalid values"))

/-- The `PATH` interpretation of `resolve_program_path` step 2:
list, colon-separated string, single path, invalid shape, or the
built-in default when unset. -/
def pathDirs : Option EnvValue →
    Except ProgramResolutionError (List (List Char))
  | some (.List items) => dirsOfItems items
  | some (.Str s) => .ok (splitChar ':' s)
  | some (.FilePath p) => .ok [p]
  | some _ => .error (.InvalidPath (chars "PATH must be a string, path, or list"))
  | none => .ok [chars "/usr/local/bin", chars "/usr/bin", chars "/bin"]

/-- The search loop of `resolve_program_path` step 2: skip empty
segments, return the first existing candidate with an execute bit,
otherwise `NotFound`. -/
def searchDirs (fs : FileSys) (program : List Char) :
    List (List Char) → Except ProgramResolutionError (List Char)
  | [] => .error (.NotFound (program ++ chars ": command not found"))
  | dir :: rest =>
    if dir.isEmpty then searchDirs fs program rest
    else
      match fs (joinPath dir program) with
      | some mode =>
        if executeBit mode then .ok (joinPath dir program)
        else searchDirs fs program rest
      | none => searchDirs fs program rest

/-- `resolve_program_path` (src/shell/exec/resolution.rs lines 46-156):
a name containing `/` is a literal path checked for existence and an
execute bit; otherwise `PATH` is enumerated. -/
def resolve_program_path (fs : FileSys) (pathVar : Option EnvValue)
    (program : List Char) :
    Except ProgramResolutionError (List Char) :=
  if program.contains '/' then
    match fs program with
    | none =>
      .error (.NoSuchFile (program ++ chars ": No such file or directory"))
    | some mode =>
      if executeBit mode then .ok program
      else
        .error (.PermissionDenied (program ++ chars ": Permission denied"))
  else
    match pathDirs pathVar with
    | .error e => .error e
    | .ok dirs => searchDirs fs program dirs

theorem searchDirs_executable (fs : FileSys) (program : List Char) :
    ∀ (dirs : List (List Char)) (p : List Char),
      searchDirs fs program dirs = .ok p →
      ∃ m, fs p = some m ∧ executeBit m = true := by
  intro dirs
  induction dirs with
  | nil => intro p h; simp [searchDirs] at h
  | cons dir rest ih =>
    intro p h
    simp only [searchDirs] at h
    split at h
    · exact ih p h
    · rcases hfs : fs (joinPath dir program) with _ | mode
      · rw [hfs] at h; exact ih p h
      · rw [hfs] at h
        dsimp only at h
        by_cases hx : executeBit mode = true
        · rw [if_pos hx] at h
          injection h with h2
          subst h2
          exact ⟨mode, hfs, hx⟩
        · rw [if_neg hx] at h
          exact ih p h

theorem resolve_ok_executable (fs : FileSys) (pathVar : Option EnvValue)
    (program p : List Char)
    (h : resolve_program_path fs pathVar program = .ok p) :
    ∃ m, fs p = some m ∧ executeBit m = true := by
  unfold resolve_program_path at h
  split at h
  · rcases hfs : fs program with _ | mode
    · rw [hfs] at h; exact absurd h (by simp)
    · rw [hfs] at h
      dsimp only at h
      by_cases hx : executeBit mode = true
      · rw [if_pos hx] at h
        injection h with h2
        subst h2
        exact ⟨mode, hfs, hx⟩
      · rw [if_neg hx] at h
        exact absurd h (by simp)
  · rcases hdirs : pathDirs pathVar with e | dirs
    · rw [hdirs] at h; exact absurd h (by simp)
    · rw [hdirs] at h
      dsimp only at h
      exact searchDirs_executable fs program dirs p h

/-- The executor's result (src/shell/exec/types.rs,
`struct ShellResult`): the `u8` exit code as a natural number. -/
structure ShellResult where
  exit_code : Nat
deriving DecidableEq

/-- Top-level `execute` (src/shell/exec/mod.rs lines 19-27): dispatch
the lowered spec, then record its exit code under `?` before returning.
The dispatch is modelled as an arbitrary state transformer because the
claim quantifies over every request. -/
def execute (run : ShellEnvironment → ShellEnvironment × ShellResult)
    (env : ShellEnvironment) : ShellEnvironment × ShellResult :=
  let r := run env
  (set_last_exit r.1 r.2.exit_code, r.2)

/-- Rust `as u8` applied to an `i32`: two's-complement truncation,
i.e. the value modulo 256. -/
def toU8 (i : Int) : Nat := (i % 256).toNat

/-- The `Builtin` arm of `execute_command_spec` (src/shell/exec/mod.rs
lines 33-39): run the function in the calling process — its state
effect lands directly in the current environment, no fork — and
truncate the returned integer to `u8`. -/
def execute_builtin
    (func : ShellEnvironment → List String → ShellEnvironment × Int)
    (args : List String) (env : ShellEnvironment) :
    ShellEnvironment × ShellResult :=
  let r := func env args
  (r.1, { exit_code := toU8 r.2 })

/-- Modelled from the spec: saturating clamp to `0..=255`, the
operation the claim says the builtin arm applies to the returned
integer (the code truncates instead; this definition exists only for
the comparison). -/
def clampU8 (i : Int) : Nat :=
  if i < 0 then 0 else if i > 255 then 255 else i.toNat

/-- A sequence of `set` calls (the claim quantifies over those). -/
def applySetCalls :
    ShellEnvironment → List (String × EnvValue) → Option ShellEnvironment
  | env, [] => some env
  | env, (k, v) :: rest =>
    match envSet env k v with
    | none => none
    | some env2 => applySetCalls env2 rest

theorem mem_keys_mapInsert {α : Type} (l : List (String × α))
    (k k2 : String) (v : α) (h : k ∈ (mapInsert k2 v l).map Prod.fst) :
    k = k2 ∨ k ∈ l.map Prod.fst := by
  simp only [mapInsert, List.map_cons] at h
  rcases List.mem_cons.mp h with h2 | h2
  · left; exact h2
  · right
    rcases List.mem_map.mp h2 with ⟨p, hp, hfst⟩
    exact List.mem_map.mpr ⟨p, List.mem_of_mem_filter hp, hfst⟩

theorem applySetCalls_no_routed_key (k : String)
    (hk : k = "PPID" ∨ k = "OLDPWD" ∨ k = "PS1" ∨ k = "PS2" ∨ k = "PS4") :
    ∀ (sets : List (String × EnvValue)) (env env2 : ShellEnvironment),
      applySetCalls env sets = some env2 →
      k ∉ envKeys env → k ∉ envKeys env2 := by
  have hcl : classifyKey k ≠ KeyClass.lastExitKey ∧
      classifyKey k ≠ KeyClass.pidKey ∧ classifyKey k ≠ KeyClass.plain := by
    rcases hk with rfl | rfl | rfl | rfl | rfl <;>
      exact ⟨by decide, by decide, by decide⟩
  intro sets
  induction sets with
  | nil =>
    intro env env2 h hkeys
    injection h with h2; subst h2; exact hkeys
  | cons p rest ih =>
    intro env env2 h hkeys
    rcases p with ⟨k2, v⟩
    simp only [applySetCalls] at h
    rcases hset : envSet env k2 v with _ | env1
    · rw [hset] at h; exact absurd h (by simp)
    · rw [hset] at h
      dsimp only at h
      apply ih env1 env2 h
      unfold envSet at hset
      cases hc2 : classifyKey k2 <;> rw [hc2] at hset
      case envKey => exact absurd hset (by simp)
      case lastExitKey =>
        injection hset with h2; subst h2
        intro hmem
        rcases mem_keys_mapInsert env.env_vars k k2 v hmem with rfl | hmem2
        · exact hcl.1 (by rw [hc2])
        · exact hkeys hmem2
      case pidKey =>
        injection hset with h2; subst h2
        intro hmem
        rcases mem_keys_mapInsert env.env_vars k k2 v hmem with rfl | hmem2
        · exact hcl.2.1 (by rw [hc2])
        · exact hkeys hmem2
      case plain =>
        injection hset with h2; subst h2
        intro hmem
        rcases mem_keys_mapInsert env.env_vars k k2 v hmem with rfl | hmem2
        · exact hcl.2.2 (by rw [hc2])
        · exact hkeys hmem2
      all_goals (injection hset with h2; subst h2; exact hkeys)

/-- A concrete environment state for witnesses (process identity slots
are arbitrary; the Rust constructor fills them from `getpid`
and `getppid`). -/
def envDefault : ShellEnvironment :=
  { env_vars := [], dir_stack := [], last_exit := .Integer 0,
    pid := .Integer 41, ppid := .Integer 40, old_pwd := .None,
    ps1 := .None, ps2 := .None, ps4 := .None }

/-- C6: composing a redirect with anything, on either side, yields the
corresponding composition error synchronously (no tree is built — the
operands, being values, are unchanged); all other operand shapes
compose successfully. -/
theorem pipe_redirect_rejection (A B : Runnable) :
    (isRedirect A = true → orCompose A B = .error pipeFromRedirectMsg) ∧
    (isRedirect A = false → isRedirect B = true →
      orCompose A B = .error pipeToRedirectMsg) ∧
    (isRedirect A = false → isRedirect B = false →
      ∃ c, orCompose A B = .ok c) := by
  refine ⟨?_, ?_, ?_⟩
  · intro h
    cases A <;> simp [isRedirect] at h
    cases B <;> rfl
  · intro h1 h2
    cases B <;> simp [isRedirect] at h2
    cases A <;> simp [isRedirect] at h1 <;> rfl
  · intro h1 h2
    exact ⟨_, orCompose_nonredirect A B h1 h2⟩

/-- Witness for C6 at a concrete redirect and command. -/
theorem pipe_redirect_rejection_witness :
    isRedirect (Runnable.Redirect (.Command "a" []) (.FileDescriptor 1)) =
      true ∧
    orCompose (.Redirect (.Command "a" []) (.FileDescriptor 1))
      (.Command "b" []) = .error pipeFromRedirectMsg ∧
    orCompose (.Command "b" [])
      (.Redirect (.Command "a" []) (.FileDescriptor 1)) =
        .error pipeToRedirectMsg :=
  ⟨rfl,
    (pipe_redirect_rejection
      (.Redirect (.Command "a" []) (.FileDescriptor 1))
      (.Command "b" [])).1 rfl,
    (pipe_redirect_rejection (.Command "b" [])
      (.Redirect (.Command "a" []) (.FileDescriptor 1))).2.1 rfl rfl⟩

/-- Witness for C4 at a concrete two-stage pipeline. -/
theorem built_flat_witness :
    Built (Runnable.Pipeline [Runnable.Command "a" []] (.Command "b" [])) ∧
    noNestedPipe
      (Runnable.Pipeline [Runnable.Command "a" []] (.Command "b" [])) =
        true :=
  ⟨Built.pipeOp (Built.cmd "a" []) (Built.cmd "b" []) rfl,
   built_flat (Built.pipeOp (Built.cmd "a" []) (Built.cmd "b" []) rfl)⟩

/-- Witness for C5 at three concrete commands. -/
theorem orCompose_assoc_witness :
    isRedirect (Runnable.Command "a" []) = false ∧
    (orCompose (Runnable.Command "a" []) (.Command "b" [])).bind
        (fun ab => orCompose ab (.Command "c" [])) =
      (orCompose (Runnable.Command "b" []) (.Command "c" [])).bind
        (fun bc => orCompose (.Command "a" []) bc) :=
  ⟨rfl, orCompose_assoc (.Command "a" []) (.Command "b" [])
    (.Command "c" []) rfl rfl rfl⟩

/-- C3: for every canonical environment value, parsing the canonical
string projection returns the value again (`canonicalEnv` makes the
claim's canonicity and its Decimal/List caveats precise). -/
theorem env_value_roundtrip (v : EnvValue) (h : canonicalEnv v = true) :
    parse_from_string (to_string_repr v) = v :=
  parse_roundtrip_aux (sizeOf v) v (Nat.le_refl _) h

/-- A concrete canonical value for the C3 witness. -/
def roundtripSample : EnvValue :=
  .List [.Integer 5, .FilePath (chars "/usr/bin")]

/-- Witness for C3 at a concrete list of an integer and a path. -/
theorem env_value_roundtrip_witness :
    canonicalEnv roundtripSample = true ∧
    parse_from_string (to_string_repr roundtripSample) = roundtripSample := by
  have hc : canonicalEnv roundtripSample = true := by
    rw [roundtripSample, canonicalEnv_list]
    simp +decide [canonicalEnv, isListVal]
  exact ⟨hc, env_value_roundtrip roundtripSample hc⟩

/-- Concrete state, overlay and inner mutations for the C1 witness. -/
def envW : ShellEnvironment :=
  { envDefault with env_vars := [("BAR", .Integer 2)] }

/-- The C1 witness overlay: one fresh key, one present key. -/
def overlayW : List (String × EnvValue) :=
  [("FOO", .Integer 1), ("BAR", .Str (chars "x"))]

/-- The C1 witness inner effect: overwrite, remove, and add keys. -/
def innerW : List EnvOp :=
  [.setv "FOO" (.Integer 7), .unsetv "BAR", .setv "BAZ" (.Bool true)]

/-- The state `execute_with_env` produces on the witness input. -/
def envExpectedW : ShellEnvironment :=
  { envDefault with env_vars := [("BAR", .Integer 2), ("BAZ", .Bool true)] }

/-- Witness for C1: the concrete run restores both overlay keys. -/
theorem with_env_scoping_witness :
    (overlayW.map Prod.fst).Nodup ∧
    execute_with_env envW overlayW innerW = some envExpectedW ∧
    envGet envExpectedW "FOO" = envGet envW "FOO" ∧
    envGet envExpectedW "BAR" = envGet envW "BAR" :=
  ⟨by decide, by decide,
    with_env_scoping envW envExpectedW overlayW innerW (by decide)
      (by decide) "FOO" (by decide),
    with_env_scoping envW envExpectedW overlayW innerW (by decide)
      (by decide) "BAR" (by decide)⟩

/-- C2 counterexample: a single `set` of the distinguished key `?`
inserts it into the open table, where `keys()` and `len()` observe
it — contradicting the claim that `?` is routed to a reserved slot and
never appears in enumeration. -/
theorem set_qmark_counterexample :
    envKeys envDefault = [] ∧
    envSet envDefault "?" (.Integer 5) =
      some { envDefault with env_vars := [("?", EnvValue.Integer 5)] } ∧
    envKeys { envDefault with env_vars := [("?", EnvValue.Integer 5)] } =
      ["?"] ∧
    envLen { envDefault with env_vars := [("?", EnvValue.Integer 5)] } = 1 := by
  refine ⟨rfl, by decide, rfl, rfl⟩

/-- C2 (amended): `set` routes exactly PPID, OLDPWD, PS1, PS2 and PS4
to reserved slots, leaving the open table unchanged, so those keys
never enter `keys()`, `items()`, `len()` or `to_envp()` through any
sequence of `set` calls; the remaining distinguished keys `?` and `$`
are routed on `get` only — `set` writes them to the open table. -/
theorem distinguished_set_routing (k : String)
    (hk : k = "PPID" ∨ k = "OLDPWD" ∨ k = "PS1" ∨ k = "PS2" ∨ k = "PS4") :
    (∀ (env : ShellEnvironment) (v : EnvValue), ∃ env2,
      envSet env k v = some env2 ∧ env2.env_vars = env.env_vars ∧
      envGet env2 k = some (some v)) ∧
    (∀ (env env2 : ShellEnvironment) (sets : List (String × EnvValue)),
      applySetCalls env sets = some env2 →
      k ∉ envKeys env → k ∉ envKeys env2) := by
  constructor
  · intro env v
    rcases hk with rfl | rfl | rfl | rfl | rfl
    · exact ⟨{ env with ppid := v },
        by simp [envSet, show classifyKey "PPID" = KeyClass.ppidKey from by decide],
        rfl,
        by simp [envGet, show classifyKey "PPID" = KeyClass.ppidKey from by decide]⟩
    · exact ⟨{ env with old_pwd := v },
        by simp [envSet, show classifyKey "OLDPWD" = KeyClass.oldpwdKey from by decide],
        rfl,
        by simp [envGet, show classifyKey "OLDPWD" = KeyClass.oldpwdKey from by decide]⟩
    · exact ⟨{ env with ps1 := v },
        by simp [envSet, show classifyKey "PS1" = KeyClass.ps1Key from by decide],
        rfl,
        by simp [envGet, show classifyKey "PS1" = KeyClass.ps1Key from by decide]⟩
    · exact ⟨{ env with ps2 := v },
        by simp [envSet, show classifyKey "PS2" = KeyClass.ps2Key from by decide],
        rfl,
        by simp [envGet, show classifyKey "PS2" = KeyClass.ps2Key from by decide]⟩
    · exact ⟨{ env with ps4 := v },
        by simp [envSet, show classifyKey "PS4" = KeyClass.ps4Key from by decide],
        rfl,
        by simp [envGet, show classifyKey "PS4" = KeyClass.ps4Key from by decide]⟩
  · intro env env2 sets h hkeys
    exact applySetCalls_no_routed_key k hk sets env env2 h hkeys

/-- Witness for the amended C2 at the key PPID. -/
theorem distinguished_set_routing_witness :
    ("PPID" = "PPID" ∨ "PPID" = "OLDPWD" ∨ "PPID" = "PS1" ∨
      "PPID" = "PS2" ∨ "PPID" = "PS4") ∧
    (∃ env2, envSet envDefault "PPID" (.Integer 9) = some env2 ∧
      env2.env_vars = envDefault.env_vars ∧
      envGet env2 "PPID" = some (some (.Integer 9))) :=
  ⟨Or.inl rfl,
    (distinguished_set_routing "PPID" (Or.inl rfl)).1 envDefault (.Integer 9)⟩

/-- C8: after `execute` returns, reading the environment key `?` yields
`Integer` of the returned exit code; the returned state already holds
the update, i.e. it happens before control returns to the caller. -/
theorem execute_updates_last_exit
    (run : ShellEnvironment → ShellEnvironment × ShellResult)
    (env : ShellEnvironment) :
    envGet (execute run env).1 "?" =
      some (some (.Integer (Int.ofNat (execute run env).2.exit_code))) := by
  show envGet (set_last_exit (run env).1 (run env).2.exit_code) "?" = _
  simp only [envGet,
    show classifyKey "?" = KeyClass.lastExitKey from by decide]
  rfl

/-- C9 counterexample: a builtin function returning 300 produces exit
code 44 (truncation modulo 256), not the claimed clamp to 255. -/
theorem execute_builtin_clamp_counterexample :
    (execute_builtin (fun env _ => (env, 300)) [] envDefault).2.exit_code =
      44 ∧
    clampU8 300 = 255 ∧ (44 : Nat) ≠ 255 := by
  refine ⟨by decide, by decide, by decide⟩

/-- C9 (amended): the `Builtin` arm runs the function in the calling
process (its environment effect lands directly in the current state, no
fork), and the resulting exit code is the returned integer reduced
modulo 256 (Rust `as u8` truncation), hence always within `0..=255`. -/
theorem execute_builtin_spec
    (func : ShellEnvironment → List String → ShellEnvironment × Int)
    (args : List String) (env : ShellEnvironment) :
    (execute_builtin func args env).1 = (func env args).1 ∧
    (execute_builtin func args env).2.exit_code = toU8 (func env args).2 ∧
    (execute_builtin func args env).2.exit_code < 256 := by
  refine ⟨rfl, rfl, ?_⟩
  show ((func env args).2 % 256).toNat < 256
  have h1 : (0 : Int) ≤ (func env args).2 % 256 :=
    Int.emod_nonneg _ (by norm_num)
  have h2 : (func env args).2 % 256 < 256 :=
    Int.emod_lt_of_pos _ (by norm_num)
  omega

/-- C10: `get` and `set` panic on the key `ENV` (so `get_var`/`set_var`
never return normally for it), while every other non-distinguished key
is read from and written to the open table without panicking. -/
theorem env_key_panics (env : ShellEnvironment) (v : EnvValue) :
    envGet env "ENV" = none ∧ envSet env "ENV" v = none ∧
    (∀ k : String,
      k ∉ ["PPID", "OLDPWD", "PS1", "PS2", "PS4", "ENV", "?", "$"] →
      envGet env k = some (env.env_vars.lookup k) ∧
      ∀ w : EnvValue, envSet env k w =
        some { env with env_vars := mapInsert k w env.env_vars }) := by
  refine ⟨?_, ?_, ?_⟩
  · simp only [envGet, show classifyKey "ENV" = KeyClass.envKey from by decide]
  · simp only [envSet, show classifyKey "ENV" = KeyClass.envKey from by decide]
  · intro k hkmem
    simp only [List.mem_cons, List.not_mem_nil, or_false, not_or] at hkmem
    have hcl : classifyKey k = .plain := by
      unfold classifyKey
      split_ifs <;> simp_all
    constructor
    · simp only [envGet, hcl]
    · intro w
      simp only [envSet, hcl]

/-- Witness for C10: the panics at `ENV` and table routing at the
ordinary key FOO, on a concrete environment. -/
theorem env_key_panics_witness :
    ("FOO" ∉ ["PPID", "OLDPWD", "PS1", "PS2", "PS4", "ENV", "?", "$"]) ∧
    envGet envDefault "ENV" = none ∧
    envSet envDefault "ENV" .None = none ∧
    envGet envDefault "FOO" = some (envDefault.env_vars.lookup "FOO") :=
  ⟨by decide, (env_key_panics envDefault .None).1,
    (env_key_panics envDefault .None).2.1,
    ((env_key_panics envDefault .None).2.2 "FOO" (by decide)).1⟩

/-- A one-file filesystem for the C7 counterexample: `./tool` exists
with mode 0o755. -/
def fsRelTool : FileSys :=
  fun p => if p = chars "./tool" then some 0o755 else none

/-- C7 counterexample: resolving the literal name `./tool` succeeds and
returns the relative path unchanged — the result is not an absolute
path, contradicting the claim that resolution returns an absolute
executable path or a failure. -/
theorem resolve_relative_counterexample :
    resolve_program_path fsRelTool none (chars "./tool") =
      .ok (chars "./tool") ∧
    isAbsolutePath (chars "./tool") = false := by
  refine ⟨rfl, by decide⟩

/-- An empty filesystem for the C7 witness. -/
def fsEmpty : FileSys := fun _ => none

/-- C7 (amended): resolution returns either an executable path (the
literal name, possibly relative) or exactly one of the four tagged
failures whose exit codes are 127, 127, 126 and 127; a name containing
`/` is treated as a literal path, failing `NoSuchFile` when absent and
`PermissionDenied` when no execute bit is set. -/
theorem resolve_program_path_spec (fs : FileSys) (pathVar : Option EnvValue)
    (program : List Char) :
    (∀ p, resolve_program_path fs pathVar program = .ok p →
      ∃ m, fs p = some m ∧ executeBit m = true) ∧
    (program.contains '/' = true →
      (fs program = none →
        resolve_program_path fs pathVar program =
          .error (.NoSuchFile
            (program ++ chars ": No such file or directory"))) ∧
      (∀ m, fs program = some m → executeBit m = false →
        resolve_program_path fs pathVar program =
          .error (.PermissionDenied
            (program ++ chars ": Permission denied")))) ∧
    (∀ msg, exit_code_of (.NotFound msg) = 127 ∧
      exit_code_of (.NoSuchFile msg) = 127 ∧
      exit_code_of (.PermissionDenied msg) = 126 ∧
      exit_code_of (.InvalidPath msg) = 127) := by
  refine ⟨fun p => resolve_ok_executable fs pathVar program p, ?_,
    fun msg => ⟨rfl, rfl, rfl, rfl⟩⟩
  intro hsl
  constructor
  · intro hnone
    unfold resolve_program_path
    rw [if_pos hsl, hnone]
  · intro m hm hx
    unfold resolve_program_path
    rw [if_pos hsl, hm]
    dsimp only
    rw [if_neg (by rw [hx]; simp)]

/-- Witness for the amended C7: on an empty filesystem, resolving the
literal name `a/b` fails with `NoSuchFile`. -/
theorem resolve_program_path_spec_witness :
    (chars "a/b").contains '/' = true ∧
    resolve_program_path fsEmpty none (chars "a/b") =
      .error (.NoSuchFile ((chars "a/b") ++
        chars ": No such file or directory")) :=
  ⟨by decide,
    ((resolve_program_path_spec fsEmpty none (chars "a/b")).2.1
      (by decide)).1 rfl⟩
